import Mathlib

/-!
Verification of the celery-exporter core (`src/main.py`).

The development embeds the three event handlers defined inside `my_monitor`
(`get_sent_time`, `get_started_time`, `get_task_done`), the bounded task
dictionary `queued_tasks`, and the metric updates they perform.  Mutable
Prometheus instruments are embedded as a trace of `MetricOp` values emitted by
each handler, in the order the Python code performs the calls; gauge readings
are folds over that trace.  Python float timestamps are embedded as rationals,
and the Python dict underlying `LimitedSizeDict` as an insertion-ordered
association list with unique keys.
-/

set_option autoImplicit false

/-- `MAX_TASKS_CAPTURED` (src/main.py line 16), default 100000. -/
def MAX_TASKS_CAPTURED : Nat := 100000

/-- The per-task record stored in `queued_tasks` (src/main.py lines 42-46):
`{"ts": ..., "queue": ..., "taskname": ...}`. -/
structure TaskRecord where
  ts : ℚ
  queue : String
  taskname : String
deriving DecidableEq

/-- The underlying insertion-ordered key/value store: oldest-inserted first. -/
abbrev Entries := List (String × TaskRecord)

/-- Python dict lookup `queued_tasks[task_id]` / membership test: the unique
binding for a key, or `none`. -/
def getEntry : Entries → String → Option TaskRecord
  | [], _ => none
  | e :: es, k => if e.1 = k then some e.2 else getEntry es k

/-- Python `task_id in queued_tasks`. -/
def containsKey (es : Entries) (k : String) : Bool :=
  (getEntry es k).isSome

/-- Python dict assignment to an existing key: update in place, position kept. -/
def replaceEntry : Entries → String → TaskRecord → Entries
  | [], _, _ => []
  | e :: es, k, v => if e.1 = k then (k, v) :: es else e :: replaceEntry es k v

/-- Python `queued_tasks.pop(task_id, None)`: remove the binding if present. -/
def popEntry : Entries → String → Entries
  | [], _ => []
  | e :: es, k => if e.1 = k then popEntry es k else e :: popEntry es k

/-- Modelled from the spec: the eviction sweep of `LimitedSizeDict`
(`utils.py` is not part of the source tree).  Per the spec the cache, after an
insertion, removes oldest-inserted entries first until at most `limit` records
remain. -/
def trimOldest (limit : Nat) (es : Entries) : Entries :=
  es.drop (es.length - limit)

/-- Modelled from the spec: `LimitedSizeDict` is imported from `utils`, which
is not part of the source tree.  Per the spec it is a bounded insertion-ordered
mapping: at most `size_limit` records resident at any instant; setting a key
that is already present updates it in place with no eviction; inserting a
genuinely new key when at capacity evicts the oldest-inserted entry
(oldest-inserted-first policy).  `entries` is kept oldest-inserted first. -/
structure LimitedSizeDict where
  size_limit : Nat
  entries : Entries
deriving DecidableEq

/-- Modelled from the spec: `LimitedSizeDict(size_limit=...)` starts empty. -/
def LimitedSizeDict.empty (cap : Nat) : LimitedSizeDict :=
  ⟨cap, []⟩

/-- Modelled from the spec: `queued_tasks[task_id] = {...}` on a
`LimitedSizeDict` — update in place when the key is present, otherwise append
the new entry and evict oldest-inserted entries down to `size_limit`. -/
def setItem (d : LimitedSizeDict) (k : String) (v : TaskRecord) : LimitedSizeDict :=
  if containsKey d.entries k then
    { d with entries := replaceEntry d.entries k v }
  else
    { d with entries := trimOldest d.size_limit (d.entries ++ [(k, v)]) }

/-- `queued_tasks = LimitedSizeDict(size_limit=MAX_TASKS_CAPTURED)`
(src/main.py line 19). -/
def queued_tasks : LimitedSizeDict :=
  LimitedSizeDict.empty MAX_TASKS_CAPTURED

/-- A `task-sent` event, with the fields `get_sent_time` reads
(src/main.py lines 40-45). -/
structure SentEvent where
  uuid : String
  timestamp : ℚ
  routing_key : String
  name : String
deriving DecidableEq

/-- A `task-started` event, with the fields `get_started_time` reads
(src/main.py lines 56-69). -/
structure StartedEvent where
  uuid : String
  timestamp : ℚ
  hostname : String
deriving DecidableEq

/-- A terminal (`task-succeeded` / `task-failed` / `task-revoked`) event, with
the fields `get_task_done` reads (src/main.py lines 75-88). -/
structure DoneEvent where
  uuid : String
  timestamp : ℚ
  hostname : String
  type : String
deriving DecidableEq

/-- Modelled from the spec: `strip_prefix_from_event` is imported from
`utils`, which is not part of the source tree.  Per the spec the terminal-kind
label is the event's own kind with the transport-level `task-` marker at the
front removed, used verbatim as the `state` label. -/
def strip_prefix_from_event (t : String) : String :=
  if t.startsWith "task-" then t.drop 5 else t

/-- One metric-instrument mutation, as performed on the Prometheus objects
declared at src/main.py lines 22-30. -/
inductive MetricOp where
  | observeWaiting (queue task_name : String) (value : ℚ)
  | incQueueLength (queue task_name : String)
  | decQueueLength (queue task_name : String)
  | incTasksRunning (queue task_name worker : String)
  | decTasksRunning (queue task_name worker : String)
  | observeDuration (queue task_name worker state : String) (value : ℚ)
deriving DecidableEq

/-- `get_sent_time` (src/main.py lines 38-52): store the record, then — only
if the key is actually resident afterwards — increment
`queue_length{event.routing_key, event.name}`. -/
def get_sent_time (d : LimitedSizeDict) (e : SentEvent) : LimitedSizeDict × List MetricOp :=
  let d' := setItem d e.uuid ⟨e.timestamp, e.routing_key, e.name⟩
  if containsKey d'.entries e.uuid then
    (d', [MetricOp.incQueueLength e.routing_key e.name])
  else
    (d', [])

/-- `get_started_time` (src/main.py lines 54-71): if the sent-event record is
resident, observe `event.timestamp - record.ts` into `waiting_time`, decrement
`queue_length`, increment `tasks_running` (labels from the record, worker from
the event), and overwrite the record's `ts` with the event timestamp. -/
def get_started_time (d : LimitedSizeDict) (e : StartedEvent) : LimitedSizeDict × List MetricOp :=
  match getEntry d.entries e.uuid with
  | none => (d, [])
  | some r =>
    ({ d with entries := replaceEntry d.entries e.uuid ⟨e.timestamp, r.queue, r.taskname⟩ },
     [MetricOp.observeWaiting r.queue r.taskname (e.timestamp - r.ts),
      MetricOp.decQueueLength r.queue r.taskname,
      MetricOp.incTasksRunning r.queue r.taskname e.hostname])

/-- `get_task_done` (src/main.py lines 73-89): if the record is resident,
decrement `tasks_running`, observe `event.timestamp - record.ts` into
`execution_stats` (state label from the stripped event type), and pop the
record. -/
def get_task_done (d : LimitedSizeDict) (e : DoneEvent) : LimitedSizeDict × List MetricOp :=
  match getEntry d.entries e.uuid with
  | none => (d, [])
  | some r =>
    ({ d with entries := popEntry d.entries e.uuid },
     [MetricOp.decTasksRunning r.queue r.taskname e.hostname,
      MetricOp.observeDuration r.queue r.taskname e.hostname
        (strip_prefix_from_event e.type) (e.timestamp - r.ts)])

/-- A lifecycle event, tagged as the receiver handler table does
(src/main.py lines 93-99). -/
inductive CeleryEvent where
  | sent (e : SentEvent)
  | started (e : StartedEvent)
  | done (e : DoneEvent)
deriving DecidableEq

/-- Dispatch one delivered event to its registered handler
(src/main.py lines 93-99). -/
def handleEvent (d : LimitedSizeDict) : CeleryEvent → LimitedSizeDict × List MetricOp
  | CeleryEvent.sent e => get_sent_time d e
  | CeleryEvent.started e => get_started_time d e
  | CeleryEvent.done e => get_task_done d e

/-- Process a sequence of delivered events one at a time, in delivery order,
concatenating the emitted metric mutations. -/
def runEvents (d : LimitedSizeDict) : List CeleryEvent → LimitedSizeDict × List MetricOp
  | [] => (d, [])
  | ev :: evs =>
    let p := handleEvent d ev
    let q := runEvents p.1 evs
    (q.1, p.2 ++ q.2)

/-- Contribution of one metric mutation to the `queue_length` gauge at a
`(queue, task_name)` label pair. -/
def queueLengthDelta (l : String × String) : MetricOp → Int
  | MetricOp.incQueueLength q t => if (q, t) = l then 1 else 0
  | MetricOp.decQueueLength q t => if (q, t) = l then -1 else 0
  | _ => 0

/-- Reading of the `queue_length` gauge at a label pair after a trace of
mutations (the gauge starts at 0). -/
def queueLength (ops : List MetricOp) (l : String × String) : Int :=
  (ops.map (queueLengthDelta l)).sum

/-- Modelled from the spec: `recv.capture(limit=MAX_TASKS_CAPTURED, ...)` at
src/main.py line 101.  Per the spec's description of the event-count limit, a
numeric `limit` makes the subscription call stop after that many delivered
events; `my_monitor` issues the call exactly once, with
`limit=MAX_TASKS_CAPTURED`, so only the first `MAX_TASKS_CAPTURED` events of
the delivered stream are processed. -/
def my_monitor (stream : List CeleryEvent) : LimitedSizeDict × List MetricOp :=
  runEvents queued_tasks (stream.take MAX_TASKS_CAPTURED)

/-- Number of delivered events `my_monitor` actually processes. -/
def my_monitor_events_processed (stream : List CeleryEvent) : Nat :=
  (stream.take MAX_TASKS_CAPTURED).length

/-- The list of keys of the store, in insertion order. -/
def entryKeys (es : Entries) : List String :=
  es.map Prod.fst

/-- The `(queue, task_name)` label pair a metric mutation carries. -/
def opQueueTask : MetricOp → Option (String × String)
  | MetricOp.observeWaiting q t _ => some (q, t)
  | MetricOp.incQueueLength q t => some (q, t)
  | MetricOp.decQueueLength q t => some (q, t)
  | MetricOp.incTasksRunning q t _ => some (q, t)
  | MetricOp.decTasksRunning q t _ => some (q, t)
  | MetricOp.observeDuration q t _ _ _ => some (q, t)

/-- The `worker` label a metric mutation carries, when it has one. -/
def opWorker : MetricOp → Option String
  | MetricOp.incTasksRunning _ _ w => some w
  | MetricOp.decTasksRunning _ _ w => some w
  | MetricOp.observeDuration _ _ w _ _ => some w
  | _ => none

/-- `true` for Enqueued and Started events: the event universe of the
`queue_length` interleaving claim. -/
def sentOrStarted : CeleryEvent → Bool
  | CeleryEvent.done _ => false
  | _ => true

/-- The task ids of the Started events of a sequence, in order. -/
def startedIds (evs : List CeleryEvent) : List String :=
  evs.filterMap fun ev =>
    match ev with
    | CeleryEvent.started e => some e.uuid
    | _ => none

/-- Number of resident records carrying the label pair `l` whose key has not
yet appeared in a processed Started event: each such record guarantees one
outstanding `queue_length` increment at `l`. -/
def pendingCount (started : List String) : Entries → (String × String) → Nat
  | [], _ => 0
  | e :: es, l =>
    (if (e.2.queue, e.2.taskname) = l ∧ e.1 ∉ started then 1 else 0) +
      pendingCount started es l

theorem getEntry_eq_none_iff (es : Entries) (k : String) :
    getEntry es k = none ↔ k ∉ entryKeys es := by
  induction es with
  | nil => simp [getEntry, entryKeys]
  | cons e es ih =>
    by_cases h : e.1 = k
    · simp [getEntry, entryKeys, h]
    · simp [getEntry, entryKeys, h, ih]
      tauto

theorem containsKey_iff_mem (es : Entries) (k : String) :
    containsKey es k = true ↔ k ∈ entryKeys es := by
  rw [containsKey, Option.isSome_iff_ne_none, ne_eq, getEntry_eq_none_iff]
  tauto

theorem entryKeys_replaceEntry (es : Entries) (k : String) (v : TaskRecord) :
    entryKeys (replaceEntry es k v) = entryKeys es := by
  induction es with
  | nil => rfl
  | cons e es ih =>
    unfold replaceEntry
    by_cases h : e.1 = k
    · rw [if_pos h]
      simp [entryKeys, h]
    · rw [if_neg h]
      simp only [entryKeys, List.map_cons] at ih ⊢
      rw [ih]

theorem length_replaceEntry (es : Entries) (k : String) (v : TaskRecord) :
    (replaceEntry es k v).length = es.length := by
  induction es with
  | nil => rfl
  | cons e es ih => by_cases h : e.1 = k <;> simp [replaceEntry, h, ih]

theorem getEntry_replaceEntry_self (es : Entries) (k : String) (v : TaskRecord)
    (h : (getEntry es k).isSome) :
    getEntry (replaceEntry es k v) k = some v := by
  induction es with
  | nil => simp [getEntry] at h
  | cons e es ih =>
    by_cases he : e.1 = k
    · simp [replaceEntry, getEntry, he]
    · simp [replaceEntry, getEntry, he] at h ⊢
      exact ih h

theorem getEntry_popEntry_self (es : Entries) (k : String) :
    getEntry (popEntry es k) k = none := by
  induction es with
  | nil => rfl
  | cons e es ih => by_cases he : e.1 = k <;> simp [popEntry, getEntry, he, ih]

theorem containsKey_replaceEntry (es : Entries) (k k' : String) (v : TaskRecord) :
    containsKey (replaceEntry es k v) k' = containsKey es k' := by
  induction es with
  | nil => rfl
  | cons e es ih =>
    simp only [containsKey] at ih ⊢
    by_cases h : e.1 = k
    · by_cases h' : e.1 = k' <;>
        simp [replaceEntry, getEntry, h, h', h ▸ h']
    · by_cases h' : e.1 = k'
      · have hk : ¬ (k' = k) := fun hh => h (h'.trans hh)
        simp [replaceEntry, getEntry, h, h', hk]
      · simp [replaceEntry, getEntry, h, h', ih]

/-- When the incoming key is already resident, `get_sent_time` updates the
record in place and increments the `queue_length` gauge. -/
theorem get_sent_time_of_resident (d : LimitedSizeDict) (e : SentEvent)
    (h : containsKey d.entries e.uuid = true) :
    get_sent_time d e =
      ({ d with entries := replaceEntry d.entries e.uuid ⟨e.timestamp, e.routing_key, e.name⟩ },
       [MetricOp.incQueueLength e.routing_key e.name]) := by
  unfold get_sent_time setItem
  rw [if_pos h]
  rw [if_pos (by simpa [containsKey_replaceEntry] using h)]

/-- Claim C1: when the Started event for a task is processed while the task's
enqueue-time record `⟨tE, q, n⟩` is still resident, the handler records into
`waiting_time[q, n]` exactly the value `Started.timestamp - tE`, with both
labels taken from the stored record. -/
theorem waiting_time_latency_correct (d : LimitedSizeDict) (e : StartedEvent)
    (tE : ℚ) (q n : String)
    (h : getEntry d.entries e.uuid = some ⟨tE, q, n⟩) :
    (get_started_time d e).2 =
      [MetricOp.observeWaiting q n (e.timestamp - tE),
       MetricOp.decQueueLength q n,
       MetricOp.incTasksRunning q n e.hostname] := by
  simp [get_started_time, h]

theorem waiting_time_latency_correct_witness :
    (get_started_time ⟨100000, [("A", ⟨100, "q1", "foo"⟩)]⟩ ⟨"A", 105, "w1"⟩).2 =
      [MetricOp.observeWaiting "q1" "foo" (105 - 100),
       MetricOp.decQueueLength "q1" "foo",
       MetricOp.incTasksRunning "q1" "foo" "w1"] :=
  waiting_time_latency_correct ⟨100000, [("A", ⟨100, "q1", "foo"⟩)]⟩ ⟨"A", 105, "w1"⟩
    100 "q1" "foo" rfl

/-- Claim C2: if the record for a task is resident when its Started event is
processed (so the handler overwrites the reference timestamp with the start
time), and the Terminal event for the same task is processed next while the
record is still resident, then the handler records into `execution_stats`
exactly `Terminal.timestamp - Started.timestamp`, and removes the record from
the cache. -/
theorem execution_duration_correct (d : LimitedSizeDict) (st : StartedEvent)
    (dn : DoneEvent) (r : TaskRecord)
    (h : getEntry d.entries st.uuid = some r) (hid : dn.uuid = st.uuid) :
    (get_task_done (get_started_time d st).1 dn).2 =
      [MetricOp.decTasksRunning r.queue r.taskname dn.hostname,
       MetricOp.observeDuration r.queue r.taskname dn.hostname
         (strip_prefix_from_event dn.type) (dn.timestamp - st.timestamp)] ∧
    getEntry (get_task_done (get_started_time d st).1 dn).1.entries dn.uuid = none := by
  have hstep : (get_started_time d st).1.entries =
      replaceEntry d.entries st.uuid ⟨st.timestamp, r.queue, r.taskname⟩ := by
    simp [get_started_time, h]
  have hget : getEntry (get_started_time d st).1.entries dn.uuid =
      some ⟨st.timestamp, r.queue, r.taskname⟩ := by
    rw [hstep, hid]
    exact getEntry_replaceEntry_self _ _ _ (by simp [h])
  constructor
  · simp [get_task_done, hget]
  · simp [get_task_done, hget, getEntry_popEntry_self]

theorem execution_duration_correct_witness :
    (get_task_done
        (get_started_time ⟨100000, [("A", ⟨100, "q1", "foo"⟩)]⟩ ⟨"A", 105, "w1"⟩).1
        ⟨"A", 130, "w1", "task-succeeded"⟩).2 =
      [MetricOp.decTasksRunning "q1" "foo" "w1",
       MetricOp.observeDuration "q1" "foo" "w1"
         (strip_prefix_from_event "task-succeeded") (130 - 105)] ∧
    getEntry
      (get_task_done
        (get_started_time ⟨100000, [("A", ⟨100, "q1", "foo"⟩)]⟩ ⟨"A", 105, "w1"⟩).1
        ⟨"A", 130, "w1", "task-succeeded"⟩).1.entries "A" = none :=
  execution_duration_correct ⟨100000, [("A", ⟨100, "q1", "foo"⟩)]⟩ ⟨"A", 105, "w1"⟩
    ⟨"A", 130, "w1", "task-succeeded"⟩ ⟨100, "q1", "foo"⟩ rfl rfl

/-- Claim C6: a Started or Terminal event whose task id is not resident in the
cache leaves both the cache and the metric trace untouched (the handler is a
total function, so no error is raised). -/
theorem orphan_event_noop (d : LimitedSizeDict) (st : StartedEvent) (dn : DoneEvent) :
    (getEntry d.entries st.uuid = none → get_started_time d st = (d, [])) ∧
    (getEntry d.entries dn.uuid = none → get_task_done d dn = (d, [])) := by
  constructor
  · intro h
    simp [get_started_time, h]
  · intro h
    simp [get_task_done, h]

theorem orphan_event_noop_witness :
    get_started_time ⟨100000, [("A", ⟨100, "q1", "foo"⟩)]⟩ ⟨"Z", 50, "w1"⟩ =
      (⟨100000, [("A", ⟨100, "q1", "foo"⟩)]⟩, []) ∧
    get_task_done ⟨100000, [("A", ⟨100, "q1", "foo"⟩)]⟩ ⟨"Z", 60, "w1", "task-failed"⟩ =
      (⟨100000, [("A", ⟨100, "q1", "foo"⟩)]⟩, []) :=
  ⟨(orphan_event_noop ⟨100000, [("A", ⟨100, "q1", "foo"⟩)]⟩ ⟨"Z", 50, "w1"⟩
      ⟨"Z", 60, "w1", "task-failed"⟩).1 rfl,
   (orphan_event_noop ⟨100000, [("A", ⟨100, "q1", "foo"⟩)]⟩ ⟨"Z", 50, "w1"⟩
      ⟨"Z", 60, "w1", "task-failed"⟩).2 rfl⟩

/-- Claim C10: a Started event does not remove the record, so a second Started
event for a still-resident task performs the full Started transition again:
it observes a waiting-time sample equal to the difference of the two Started
timestamps, decrements `queue_length` a second time and increments
`tasks_running` a second time. -/
theorem second_started_repeats_transition (d : LimitedSizeDict)
    (st1 st2 : StartedEvent) (r : TaskRecord)
    (h : getEntry d.entries st1.uuid = some r) (hid : st2.uuid = st1.uuid) :
    containsKey (get_started_time d st1).1.entries st1.uuid = true ∧
    (get_started_time (get_started_time d st1).1 st2).2 =
      [MetricOp.observeWaiting r.queue r.taskname (st2.timestamp - st1.timestamp),
       MetricOp.decQueueLength r.queue r.taskname,
       MetricOp.incTasksRunning r.queue r.taskname st2.hostname] := by
  have hstep : (get_started_time d st1).1.entries =
      replaceEntry d.entries st1.uuid ⟨st1.timestamp, r.queue, r.taskname⟩ := by
    simp [get_started_time, h]
  have hget : getEntry (get_started_time d st1).1.entries st1.uuid =
      some ⟨st1.timestamp, r.queue, r.taskname⟩ := by
    rw [hstep]
    exact getEntry_replaceEntry_self _ _ _ (by simp [h])
  refine ⟨by simp [containsKey, hget], ?_⟩
  set d1 := (get_started_time d st1).1 with hd1
  simp [get_started_time, hid, hget]

theorem second_started_repeats_transition_witness :
    containsKey
      (get_started_time ⟨100000, [("A", ⟨100, "q1", "foo"⟩)]⟩ ⟨"A", 105, "w1"⟩).1.entries
      "A" = true ∧
    (get_started_time
        (get_started_time ⟨100000, [("A", ⟨100, "q1", "foo"⟩)]⟩ ⟨"A", 105, "w1"⟩).1
        ⟨"A", 111, "w2"⟩).2 =
      [MetricOp.observeWaiting "q1" "foo" (111 - 105),
       MetricOp.decQueueLength "q1" "foo",
       MetricOp.incTasksRunning "q1" "foo" "w2"] :=
  second_started_repeats_transition ⟨100000, [("A", ⟨100, "q1", "foo"⟩)]⟩
    ⟨"A", 105, "w1"⟩ ⟨"A", 111, "w2"⟩ ⟨100, "q1", "foo"⟩ rfl rfl

/-- Claim C7: `my_monitor` issues `recv.capture` once with
`limit=MAX_TASKS_CAPTURED`, so on a delivered stream longer than
`MAX_TASKS_CAPTURED` it processes exactly `MAX_TASKS_CAPTURED` events and in
particular stops before the end of the stream instead of monitoring
indefinitely. -/
theorem my_monitor_event_limit (stream : List CeleryEvent)
    (h : MAX_TASKS_CAPTURED < stream.length) :
    my_monitor_events_processed stream = MAX_TASKS_CAPTURED ∧
    my_monitor_events_processed stream < stream.length := by
  unfold my_monitor_events_processed
  rw [List.length_take]
  omega

theorem my_monitor_event_limit_witness :
    MAX_TASKS_CAPTURED <
      (List.replicate 100001 (CeleryEvent.started ⟨"x", 0, "w"⟩)).length ∧
    my_monitor_events_processed
        (List.replicate 100001 (CeleryEvent.started ⟨"x", 0, "w"⟩)) =
      MAX_TASKS_CAPTURED ∧
    my_monitor_events_processed
        (List.replicate 100001 (CeleryEvent.started ⟨"x", 0, "w"⟩)) <
      (List.replicate 100001 (CeleryEvent.started ⟨"x", 0, "w"⟩)).length := by
  have h : MAX_TASKS_CAPTURED <
      (List.replicate 100001 (CeleryEvent.started ⟨"x", 0, "w"⟩)).length := by
    rw [List.length_replicate]
    norm_num [MAX_TASKS_CAPTURED]
  exact ⟨h, my_monitor_event_limit _ h⟩

theorem entryKeys_append (es es' : Entries) :
    entryKeys (es ++ es') = entryKeys es ++ entryKeys es' := by
  simp [entryKeys]

theorem containsKey_append_self (ys : Entries) (k : String) (v : TaskRecord) :
    containsKey (ys ++ [(k, v)]) k = true := by
  rw [containsKey_iff_mem, entryKeys_append]
  simp [entryKeys]

/-- When the incoming key is new and the cache is exactly at a positive
capacity, `get_sent_time` evicts the head (oldest-inserted) entry, appends the
new record, and increments the gauge. -/
theorem get_sent_time_of_full (d : LimitedSizeDict) (e : SentEvent)
    (h : containsKey d.entries e.uuid = false)
    (hlen : d.entries.length = d.size_limit) (hpos : 1 ≤ d.size_limit) :
    get_sent_time d e =
      ({ d with entries := d.entries.tail ++ [(e.uuid, ⟨e.timestamp, e.routing_key, e.name⟩)] },
       [MetricOp.incQueueLength e.routing_key e.name]) := by
  have hone : 1 ≤ d.entries.length := hlen ▸ hpos
  have htrim : trimOldest d.size_limit (d.entries ++ [(e.uuid, ⟨e.timestamp, e.routing_key, e.name⟩)]) =
      d.entries.tail ++ [(e.uuid, ⟨e.timestamp, e.routing_key, e.name⟩)] := by
    unfold trimOldest
    have hn : (d.entries ++ [(e.uuid, (⟨e.timestamp, e.routing_key, e.name⟩ : TaskRecord))]).length
        - d.size_limit = 1 := by
      simp only [List.length_append, List.length_cons, List.length_nil]
      omega
    rw [hn, List.drop_append_of_le_length hone, List.drop_one]
  have hset : setItem d e.uuid ⟨e.timestamp, e.routing_key, e.name⟩ =
      { d with entries := d.entries.tail ++ [(e.uuid, ⟨e.timestamp, e.routing_key, e.name⟩)] } := by
    unfold setItem
    rw [if_neg (by simp [h]), htrim]
  unfold get_sent_time
  rw [hset]
  rw [if_pos (containsKey_append_self _ _ _)]

/-- Claim C5: with the cache exactly at a positive capacity, an Enqueued event
for a non-resident task id evicts exactly one record — the oldest-inserted one
(the head of the insertion-ordered store) — and the new record is resident
afterwards; an Enqueued event for a resident task id updates the record in
place, preserving the key set and the size, with no eviction.  In particular
(witness), with capacity 1, Enqueued(A) then Enqueued(B) leaves exactly B
resident. -/
theorem eviction_oldest_first (d : LimitedSizeDict) (e : SentEvent) :
    (containsKey d.entries e.uuid = false → d.entries.length = d.size_limit →
      1 ≤ d.size_limit →
      (get_sent_time d e).1.entries =
        d.entries.tail ++ [(e.uuid, ⟨e.timestamp, e.routing_key, e.name⟩)] ∧
      containsKey (get_sent_time d e).1.entries e.uuid = true ∧
      (get_sent_time d e).1.entries.length = d.entries.length) ∧
    (containsKey d.entries e.uuid = true →
      getEntry (get_sent_time d e).1.entries e.uuid =
        some ⟨e.timestamp, e.routing_key, e.name⟩ ∧
      entryKeys (get_sent_time d e).1.entries = entryKeys d.entries ∧
      (get_sent_time d e).1.entries.length = d.entries.length) := by
  constructor
  · intro h hlen hpos
    rw [get_sent_time_of_full d e h hlen hpos]
    refine ⟨rfl, containsKey_append_self _ _ _, ?_⟩
    have hone : 1 ≤ d.entries.length := hlen ▸ hpos
    simp only [List.length_append, List.length_tail, List.length_cons, List.length_nil]
    omega
  · intro h
    rw [get_sent_time_of_resident d e h]
    refine ⟨?_, entryKeys_replaceEntry _ _ _, length_replaceEntry _ _ _⟩
    exact getEntry_replaceEntry_self _ _ _ (by simpa [containsKey] using h)

theorem eviction_oldest_first_witness :
    ((get_sent_time ⟨1, [("A", ⟨0, "q", "t"⟩)]⟩ ⟨"B", 1, "q", "t"⟩).1.entries =
        [("A", (⟨0, "q", "t"⟩ : TaskRecord))].tail ++ [("B", ⟨1, "q", "t"⟩)] ∧
      containsKey (get_sent_time ⟨1, [("A", ⟨0, "q", "t"⟩)]⟩ ⟨"B", 1, "q", "t"⟩).1.entries
          "B" = true ∧
      (get_sent_time ⟨1, [("A", ⟨0, "q", "t"⟩)]⟩ ⟨"B", 1, "q", "t"⟩).1.entries.length =
        [("A", (⟨0, "q", "t"⟩ : TaskRecord))].length) ∧
    (getEntry (get_sent_time ⟨1, [("A", ⟨0, "q", "t"⟩)]⟩ ⟨"A", 5, "q2", "t2"⟩).1.entries
        "A" = some ⟨5, "q2", "t2"⟩ ∧
      entryKeys (get_sent_time ⟨1, [("A", ⟨0, "q", "t"⟩)]⟩ ⟨"A", 5, "q2", "t2"⟩).1.entries =
        entryKeys [("A", (⟨0, "q", "t"⟩ : TaskRecord))] ∧
      (get_sent_time ⟨1, [("A", ⟨0, "q", "t"⟩)]⟩ ⟨"A", 5, "q2", "t2"⟩).1.entries.length =
        [("A", (⟨0, "q", "t"⟩ : TaskRecord))].length) :=
  ⟨(eviction_oldest_first ⟨1, [("A", ⟨0, "q", "t"⟩)]⟩ ⟨"B", 1, "q", "t"⟩).1 rfl rfl
      (Nat.le_refl 1),
   (eviction_oldest_first ⟨1, [("A", ⟨0, "q", "t"⟩)]⟩ ⟨"A", 5, "q2", "t2"⟩).2 rfl⟩

theorem queueLength_nil (l : String × String) : queueLength [] l = 0 := rfl

theorem queueLength_append (ops ops' : List MetricOp) (l : String × String) :
    queueLength (ops ++ ops') l = queueLength ops l + queueLength ops' l := by
  simp [queueLength]

/-- Claim C9: an Enqueued event whose task id is already resident overwrites
the record in place (new timestamp, queue and task name; no new entry) and
increments `queue_length` again; consequently `m` consecutive Enqueued events
for the same resident-or-new task id contribute exactly `m` increments to
`queueLength[routing_key, name]` while the id occupies a single entry. -/
theorem duplicate_enqueue_overwrites_and_increments (d : LimitedSizeDict) (e : SentEvent)
    (h : containsKey d.entries e.uuid = true) :
    getEntry (get_sent_time d e).1.entries e.uuid =
      some ⟨e.timestamp, e.routing_key, e.name⟩ ∧
    (get_sent_time d e).1.entries.length = d.entries.length ∧
    (get_sent_time d e).2 = [MetricOp.incQueueLength e.routing_key e.name] ∧
    ∀ m : Nat,
      queueLength (runEvents d (List.replicate m (CeleryEvent.sent e))).2
        (e.routing_key, e.name) = m := by
  refine ⟨?_, ?_, ?_, ?_⟩
  · rw [get_sent_time_of_resident d e h]
    exact getEntry_replaceEntry_self _ _ _ (by simpa [containsKey] using h)
  · rw [get_sent_time_of_resident d e h]
    exact length_replaceEntry _ _ _
  · rw [get_sent_time_of_resident d e h]
  · intro m
    induction m generalizing d with
    | zero => simp [runEvents, queueLength]
    | succ m ih =>
      rw [List.replicate_succ]
      have hstep : handleEvent d (CeleryEvent.sent e) =
          ({ d with entries := replaceEntry d.entries e.uuid ⟨e.timestamp, e.routing_key, e.name⟩ },
           [MetricOp.incQueueLength e.routing_key e.name]) := by
        simpa [handleEvent] using get_sent_time_of_resident d e h
      have h' : containsKey
          (replaceEntry d.entries e.uuid ⟨e.timestamp, e.routing_key, e.name⟩) e.uuid = true := by
        rw [containsKey_replaceEntry]
        exact h
      simp only [runEvents, hstep, queueLength_append]
      rw [ih _ h']
      simp [queueLength, queueLengthDelta]
      omega

theorem duplicate_enqueue_overwrites_and_increments_witness :
    getEntry
      (get_sent_time ⟨100000, [("A", ⟨0, "q", "t"⟩)]⟩ ⟨"A", 7, "q2", "t2"⟩).1.entries
      "A" = some ⟨7, "q2", "t2"⟩ ∧
    (get_sent_time ⟨100000, [("A", ⟨0, "q", "t"⟩)]⟩ ⟨"A", 7, "q2", "t2"⟩).1.entries.length =
      [("A", (⟨0, "q", "t"⟩ : TaskRecord))].length ∧
    (get_sent_time ⟨100000, [("A", ⟨0, "q", "t"⟩)]⟩ ⟨"A", 7, "q2", "t2"⟩).2 =
      [MetricOp.incQueueLength "q2" "t2"] ∧
    ∀ m : Nat,
      queueLength
        (runEvents ⟨100000, [("A", ⟨0, "q", "t"⟩)]⟩
          (List.replicate m (CeleryEvent.sent ⟨"A", 7, "q2", "t2"⟩))).2
        ("q2", "t2") = m :=
  duplicate_enqueue_overwrites_and_increments ⟨100000, [("A", ⟨0, "q", "t"⟩)]⟩
    ⟨"A", 7, "q2", "t2"⟩ rfl

theorem length_trimOldest_le (limit : Nat) (es : Entries) :
    (trimOldest limit es).length ≤ limit := by
  unfold trimOldest
  rw [List.length_drop]
  omega

theorem setItem_size_limit (d : LimitedSizeDict) (k : String) (v : TaskRecord) :
    (setItem d k v).size_limit = d.size_limit := by
  unfold setItem
  split <;> rfl

theorem setItem_length_le (d : LimitedSizeDict) (k : String) (v : TaskRecord)
    (h : d.entries.length ≤ d.size_limit) :
    (setItem d k v).entries.length ≤ d.size_limit := by
  unfold setItem
  split
  · simpa [length_replaceEntry] using h
  · exact length_trimOldest_le _ _

theorem length_popEntry_le (es : Entries) (k : String) :
    (popEntry es k).length ≤ es.length := by
  induction es with
  | nil => simp [popEntry]
  | cons e es ih =>
    unfold popEntry
    split
    · exact Nat.le_succ_of_le ih
    · simpa using ih

theorem handleEvent_size (d : LimitedSizeDict) (ev : CeleryEvent)
    (h : d.entries.length ≤ d.size_limit) :
    (handleEvent d ev).1.size_limit = d.size_limit ∧
    (handleEvent d ev).1.entries.length ≤ d.size_limit := by
  cases ev with
  | sent e =>
    have h1 : (get_sent_time d e).1 = setItem d e.uuid ⟨e.timestamp, e.routing_key, e.name⟩ := by
      simp only [get_sent_time]
      split <;> rfl
    simp only [handleEvent, h1]
    exact ⟨setItem_size_limit _ _ _, setItem_length_le _ _ _ h⟩
  | started e =>
    simp only [handleEvent, get_started_time]
    split
    · exact ⟨rfl, h⟩
    · exact ⟨rfl, by simpa [length_replaceEntry] using h⟩
  | done e =>
    simp only [handleEvent, get_task_done]
    split
    · exact ⟨rfl, h⟩
    · exact ⟨rfl, le_trans (length_popEntry_le _ _) h⟩

theorem runEvents_size (evs : List CeleryEvent) (d : LimitedSizeDict)
    (h : d.entries.length ≤ d.size_limit) :
    (runEvents d evs).1.size_limit = d.size_limit ∧
    (runEvents d evs).1.entries.length ≤ d.size_limit := by
  induction evs generalizing d with
  | nil => exact ⟨rfl, h⟩
  | cons ev evs ih =>
    have hs := handleEvent_size d ev h
    have hrec := ih (handleEvent d ev).1 (hs.1 ▸ hs.2)
    simp only [runEvents]
    exact ⟨hrec.1.trans hs.1, hs.1 ▸ hrec.2⟩

/-- Claim C3: starting from an empty cache of any capacity `cap` (default
`MAX_TASKS_CAPTURED = 100000`, the `queued_tasks` instance), after processing
any prefix of any event sequence the number of resident records is at most
`cap`. -/
theorem cache_size_bounded (cap : Nat) (evs : List CeleryEvent) (i : Nat) :
    (runEvents (LimitedSizeDict.empty cap) (evs.take i)).1.entries.length ≤ cap ∧
    (runEvents queued_tasks (evs.take i)).1.entries.length ≤ MAX_TASKS_CAPTURED := by
  constructor
  · exact (runEvents_size (evs.take i) (LimitedSizeDict.empty cap)
      (by simp [LimitedSizeDict.empty])).2
  · exact (runEvents_size (evs.take i) queued_tasks
      (by simp [queued_tasks, LimitedSizeDict.empty])).2

/-- Claim C8, counterexample: the `worker` label placed on `tasks_running` is
the Started event's own `hostname` payload field, not a field of the stored
record — two Started events that find the same stored record but carry
different hostnames produce different metric mutations. -/
theorem worker_label_from_event_cex :
    (get_started_time ⟨100000, [("A", ⟨0, "q1", "t1"⟩)]⟩ ⟨"A", 3, "w1"⟩).2 =
      [MetricOp.observeWaiting "q1" "t1" (3 - 0),
       MetricOp.decQueueLength "q1" "t1",
       MetricOp.incTasksRunning "q1" "t1" "w1"] ∧
    (get_started_time ⟨100000, [("A", ⟨0, "q1", "t1"⟩)]⟩ ⟨"A", 3, "w1"⟩).2 ≠
      (get_started_time ⟨100000, [("A", ⟨0, "q1", "t1"⟩)]⟩ ⟨"A", 3, "w2"⟩).2 := by
  constructor
  · simp [get_started_time, getEntry]
  · simp [get_started_time, getEntry]

/-- Claim C8 as amended: for every Started or Terminal event that finds a
resident record, the `(queue, task_name)` labels of every emitted metric
mutation are taken from the stored record, while the `worker` label (when the
instrument has one) is the event's own `hostname` field, which the record does
not store. -/
theorem labels_queue_task_from_record (d : LimitedSizeDict) (st : StartedEvent)
    (dn : DoneEvent) (r r' : TaskRecord)
    (h : getEntry d.entries st.uuid = some r)
    (h' : getEntry d.entries dn.uuid = some r') :
    (∀ op ∈ (get_started_time d st).2,
      opQueueTask op = some (r.queue, r.taskname) ∧
      (opWorker op = none ∨ opWorker op = some st.hostname)) ∧
    (∀ op ∈ (get_task_done d dn).2,
      opQueueTask op = some (r'.queue, r'.taskname) ∧
      opWorker op = some dn.hostname) := by
  constructor
  · intro op hop
    simp only [get_started_time, h] at hop
    simp only [List.mem_cons, List.mem_singleton] at hop
    rcases hop with rfl | rfl | rfl | hop
    · exact ⟨rfl, Or.inl rfl⟩
    · exact ⟨rfl, Or.inl rfl⟩
    · exact ⟨rfl, Or.inr rfl⟩
    · simp at hop
  · intro op hop
    simp only [get_task_done, h'] at hop
    simp only [List.mem_cons, List.mem_singleton] at hop
    rcases hop with rfl | rfl | hop
    · exact ⟨rfl, rfl⟩
    · exact ⟨rfl, rfl⟩
    · simp at hop

theorem labels_queue_task_from_record_witness :
    (∀ op ∈ (get_started_time ⟨100000, [("A", ⟨0, "q1", "t1"⟩)]⟩ ⟨"A", 3, "w1"⟩).2,
      opQueueTask op = some ("q1", "t1") ∧
      (opWorker op = none ∨ opWorker op = some "w1")) ∧
    (∀ op ∈ (get_task_done ⟨100000, [("A", ⟨0, "q1", "t1"⟩)]⟩
        ⟨"A", 9, "w3", "task-revoked"⟩).2,
      opQueueTask op = some ("q1", "t1") ∧ opWorker op = some "w3") :=
  labels_queue_task_from_record ⟨100000, [("A", ⟨0, "q1", "t1"⟩)]⟩ ⟨"A", 3, "w1"⟩
    ⟨"A", 9, "w3", "task-revoked"⟩ ⟨0, "q1", "t1"⟩ ⟨0, "q1", "t1"⟩ rfl rfl

theorem pendingCount_append (started : List String) (es es' : Entries)
    (l : String × String) :
    pendingCount started (es ++ es') l =
      pendingCount started es l + pendingCount started es' l := by
  induction es with
  | nil => simp [pendingCount]
  | cons e es ih =>
    simp only [List.cons_append, pendingCount, List.append_eq] at ih ⊢
    rw [ih]
    omega

theorem pendingCount_drop_le (started : List String) (es : Entries) (m : Nat)
    (l : String × String) :
    pendingCount started (es.drop m) l ≤ pendingCount started es l := by
  have h := pendingCount_append started (es.take m) (es.drop m) l
  rw [List.take_append_drop] at h
  omega

theorem pendingCount_replace_le (started : List String) (es : Entries)
    (k : String) (v : TaskRecord) (l : String × String) :
    pendingCount started (replaceEntry es k v) l ≤
      pendingCount started es l + (if (v.queue, v.taskname) = l then 1 else 0) := by
  induction es with
  | nil => simp [replaceEntry, pendingCount]
  | cons e es ih =>
    unfold replaceEntry
    split
    · simp only [pendingCount]
      split_ifs <;> simp_all
      omega
    · simp only [pendingCount]
      omega

theorem pendingCount_started_mono (started : List String) (k : String)
    (es : Entries) (l : String × String) :
    pendingCount (started ++ [k]) es l ≤ pendingCount started es l := by
  induction es with
  | nil => simp [pendingCount]
  | cons e es ih =>
    simp only [pendingCount]
    have : (if (e.2.queue, e.2.taskname) = l ∧ e.1 ∉ started ++ [k] then 1 else 0) ≤
        (if (e.2.queue, e.2.taskname) = l ∧ e.1 ∉ started then 1 else 0) := by
      split_ifs with h1 h2 <;> try omega
      exact absurd ⟨h1.1, fun hm => h1.2 (List.mem_append_left _ hm)⟩ h2
    omega

theorem pendingCount_started_irrelevant (started : List String) (k : String)
    (es : Entries) (hk : k ∉ entryKeys es) (l : String × String) :
    pendingCount (started ++ [k]) es l = pendingCount started es l := by
  induction es with
  | nil => rfl
  | cons e es ih =>
    simp only [entryKeys, List.map_cons, List.mem_cons] at hk
    push_neg at hk
    have hne : e.1 ≠ k := fun h => hk.1 h.symm
    have hmem : (e.1 ∉ started ++ [k]) ↔ (e.1 ∉ started) := by
      simp [List.mem_append, hne]
    simp only [pendingCount, hmem, ih (by simpa [entryKeys] using hk.2)]

theorem pending_flip (started : List String) (es : Entries) (k : String)
    (r : TaskRecord) (t : ℚ)
    (hk : getEntry es k = some r) (hnd : (entryKeys es).Nodup) (hs : k ∉ started)
    (l : String × String) :
    pendingCount (started ++ [k]) (replaceEntry es k ⟨t, r.queue, r.taskname⟩) l +
      (if (r.queue, r.taskname) = l then 1 else 0) =
    pendingCount started es l := by
  induction es with
  | nil => simp [getEntry] at hk
  | cons e es ih =>
    simp only [entryKeys, List.map_cons, List.nodup_cons] at hnd
    by_cases he : e.1 = k
    · have hr : e.2 = r := by
        simpa [getEntry, he] using hk
      have hknotin : k ∉ entryKeys es := he ▸ hnd.1
      unfold replaceEntry
      rw [if_pos he]
      simp only [pendingCount]
      have hkmem : k ∈ started ++ [k] := List.mem_append_right _ (List.mem_singleton.mpr rfl)
      rw [if_neg (fun hcon => hcon.2 hkmem)]
      rw [pendingCount_started_irrelevant started k es hknotin l]
      have hhead : (if (e.2.queue, e.2.taskname) = l ∧ e.1 ∉ started then 1 else 0) =
          (if (r.queue, r.taskname) = l then 1 else 0) := by
        rw [hr, he]
        split_ifs with h1 h2 <;> tauto
      omega
    · have hk' : getEntry es k = some r := by
        simpa [getEntry, he] using hk
      have hmem : (e.1 ∉ started ++ [k]) ↔ (e.1 ∉ started) := by
        simp [List.mem_append, he]
      unfold replaceEntry
      rw [if_neg he]
      simp only [pendingCount, hmem]
      have := ih hk' (by simpa [entryKeys] using hnd.2)
      omega

theorem trim_vanish (limit : Nat) (es : Entries) (k : String) (v : TaskRecord)
    (h : containsKey (trimOldest limit (es ++ [(k, v)])) k = false) :
    trimOldest limit (es ++ [(k, v)]) = [] := by
  unfold trimOldest at *
  by_cases hm : (es ++ [(k, v)]).length - limit ≤ es.length
  · rw [List.drop_append_of_le_length hm] at h
    rw [containsKey_append_self] at h
    cases h
  · apply List.drop_eq_nil_of_le
    simp only [List.length_append, List.length_cons, List.length_nil] at hm ⊢
    omega

theorem queueLength_inc (q t : String) (l : String × String) :
    queueLength [MetricOp.incQueueLength q t] l = if (q, t) = l then 1 else 0 := by
  simp [queueLength, queueLengthDelta]

theorem queueLength_started_ops (q t w : String) (x : ℚ) (l : String × String) :
    queueLength [MetricOp.observeWaiting q t x, MetricOp.decQueueLength q t,
      MetricOp.incTasksRunning q t w] l = if (q, t) = l then -1 else 0 := by
  simp only [queueLength, List.map_cons, List.map_nil, List.sum_cons, List.sum_nil,
    queueLengthDelta]
  split_ifs <;> omega

theorem get_sent_time_of_new (d : LimitedSizeDict) (e : SentEvent)
    (h : containsKey d.entries e.uuid = false) :
    get_sent_time d e =
      (⟨d.size_limit,
        trimOldest d.size_limit (d.entries ++ [(e.uuid, ⟨e.timestamp, e.routing_key, e.name⟩)])⟩,
       if containsKey
           (trimOldest d.size_limit (d.entries ++ [(e.uuid, ⟨e.timestamp, e.routing_key, e.name⟩)]))
           e.uuid
       then [MetricOp.incQueueLength e.routing_key e.name] else []) := by
  have hset : setItem d e.uuid ⟨e.timestamp, e.routing_key, e.name⟩ =
      ⟨d.size_limit,
        trimOldest d.size_limit (d.entries ++ [(e.uuid, ⟨e.timestamp, e.routing_key, e.name⟩)])⟩ := by
    unfold setItem
    rw [if_neg (by simp [h])]
  simp only [get_sent_time, hset]
  split <;> rfl

theorem handleEvent_ql_inv (d : LimitedSizeDict) (g : String × String → Int)
    (started : List String) (ev : CeleryEvent)
    (hso : sentOrStarted ev = true)
    (hnew : ∀ id ∈ startedIds [ev], id ∉ started)
    (hnd : (entryKeys d.entries).Nodup)
    (hinv : ∀ l, (pendingCount started d.entries l : Int) ≤ g l) :
    (entryKeys (handleEvent d ev).1.entries).Nodup ∧
    ∀ l, (pendingCount (started ++ startedIds [ev]) (handleEvent d ev).1.entries l : Int) ≤
      g l + queueLength (handleEvent d ev).2 l := by
  cases ev with
  | done e => simp [sentOrStarted] at hso
  | sent e =>
    have hids : startedIds [CeleryEvent.sent e] = [] := rfl
    rw [hids, List.append_nil]
    by_cases h : containsKey d.entries e.uuid = true
    · rw [show handleEvent d (CeleryEvent.sent e) = get_sent_time d e from rfl,
        get_sent_time_of_resident d e h]
      refine ⟨by simpa [entryKeys_replaceEntry] using hnd, ?_⟩
      dsimp only
      intro l
      have hle : pendingCount started
            (replaceEntry d.entries e.uuid ⟨e.timestamp, e.routing_key, e.name⟩) l ≤
          pendingCount started d.entries l + (if (e.routing_key, e.name) = l then 1 else 0) :=
        pendingCount_replace_le started d.entries e.uuid ⟨e.timestamp, e.routing_key, e.name⟩ l
      have hg := hinv l
      rw [queueLength_inc]
      split_ifs at hle ⊢ <;> omega
    · have hbool : containsKey d.entries e.uuid = false := by simpa using h
      rw [show handleEvent d (CeleryEvent.sent e) = get_sent_time d e from rfl,
        get_sent_time_of_new d e hbool]
      have hknotin : e.uuid ∉ entryKeys d.entries := by
        rw [← containsKey_iff_mem, hbool]
        simp
      have hndapp :
          (entryKeys (d.entries ++ [(e.uuid, ⟨e.timestamp, e.routing_key, e.name⟩)])).Nodup := by
        rw [entryKeys_append]
        refine List.Nodup.append hnd (by simp [entryKeys]) ?_
        intro a ha hb
        simp [entryKeys] at hb
        exact hknotin (hb ▸ ha)
      have hndes' :
          (entryKeys (trimOldest d.size_limit
            (d.entries ++ [(e.uuid, ⟨e.timestamp, e.routing_key, e.name⟩)]))).Nodup := by
        unfold trimOldest
        exact hndapp.sublist (List.Sublist.map _ (List.drop_sublist _ _))
      refine ⟨hndes', ?_⟩
      dsimp only
      intro l
      have hg := hinv l
      have h1 : pendingCount started
            (trimOldest d.size_limit
              (d.entries ++ [(e.uuid, ⟨e.timestamp, e.routing_key, e.name⟩)])) l ≤
          pendingCount started (d.entries ++ [(e.uuid, ⟨e.timestamp, e.routing_key, e.name⟩)]) l :=
        pendingCount_drop_le _ _ _ _
      have h2 : pendingCount started
            (d.entries ++ [(e.uuid, ⟨e.timestamp, e.routing_key, e.name⟩)]) l =
          pendingCount started d.entries l +
            pendingCount started [(e.uuid, ⟨e.timestamp, e.routing_key, e.name⟩)] l :=
        pendingCount_append _ _ _ _
      have h3 : pendingCount started [(e.uuid, ⟨e.timestamp, e.routing_key, e.name⟩)] l ≤
          (if (e.routing_key, e.name) = l then 1 else 0) := by
        simp only [pendingCount]
        split_ifs with hA hB
        · omega
        · exact absurd hA.1 hB
        · omega
        · omega
      by_cases hc : containsKey
          (trimOldest d.size_limit
            (d.entries ++ [(e.uuid, ⟨e.timestamp, e.routing_key, e.name⟩)])) e.uuid = true
      · rw [if_pos hc, queueLength_inc]
        split_ifs at h3 ⊢ <;> omega
      · have hnil := trim_vanish d.size_limit d.entries e.uuid
          ⟨e.timestamp, e.routing_key, e.name⟩ (by simpa using hc)
        rw [if_neg hc, hnil]
        have hzero : pendingCount started ([] : Entries) l = 0 := rfl
        have hql : queueLength [] l = 0 := rfl
        rw [hzero, hql]
        omega
  | started e =>
    have hids : startedIds [CeleryEvent.started e] = [e.uuid] := rfl
    have hnotin : e.uuid ∉ started := hnew e.uuid (by rw [hids]; exact List.mem_singleton.mpr rfl)
    rw [hids]
    cases hget : getEntry d.entries e.uuid with
    | none =>
      rw [show handleEvent d (CeleryEvent.started e) = get_started_time d e from rfl,
        show get_started_time d e = (d, []) from by simp [get_started_time, hget]]
      refine ⟨hnd, ?_⟩
      dsimp only
      intro l
      have h1 := pendingCount_started_mono started e.uuid d.entries l
      have h2 := hinv l
      have hql : queueLength [] l = 0 := rfl
      rw [hql]
      omega
    | some r =>
      rw [show handleEvent d (CeleryEvent.started e) = get_started_time d e from rfl]
      have hgs : get_started_time d e =
          ({ d with entries := replaceEntry d.entries e.uuid ⟨e.timestamp, r.queue, r.taskname⟩ },
           [MetricOp.observeWaiting r.queue r.taskname (e.timestamp - r.ts),
            MetricOp.decQueueLength r.queue r.taskname,
            MetricOp.incTasksRunning r.queue r.taskname e.hostname]) := by
        simp [get_started_time, hget]
      rw [hgs]
      refine ⟨by simpa [entryKeys_replaceEntry] using hnd, ?_⟩
      dsimp only
      intro l
      have hflip := pending_flip started d.entries e.uuid r e.timestamp hget hnd hnotin l
      have hg := hinv l
      rw [queueLength_started_ops]
      split_ifs at hflip ⊢ <;> omega

theorem startedIds_cons (ev : CeleryEvent) (evs : List CeleryEvent) :
    startedIds (ev :: evs) = startedIds [ev] ++ startedIds evs := by
  cases ev <;> simp [startedIds]

theorem runEvents_ql_inv (evs : List CeleryEvent) (started : List String)
    (d : LimitedSizeDict) (g : String × String → Int)
    (hso : ∀ ev ∈ evs, sentOrStarted ev = true)
    (hnew : ∀ id ∈ startedIds evs, id ∉ started)
    (hdup : (startedIds evs).Nodup)
    (hnd : (entryKeys d.entries).Nodup)
    (hinv : ∀ l, (pendingCount started d.entries l : Int) ≤ g l) :
    ∀ l, (pendingCount (started ++ startedIds evs) (runEvents d evs).1.entries l : Int) ≤
      g l + queueLength (runEvents d evs).2 l := by
  induction evs generalizing started d g with
  | nil =>
    intro l
    have h0 : queueLength [] l = 0 := rfl
    simpa [runEvents, startedIds, h0] using hinv l
  | cons ev evs ih =>
    have hcons := startedIds_cons ev evs
    have hstep := handleEvent_ql_inv d g started ev (hso ev (List.mem_cons_self ev evs))
      (fun id hid => hnew id (by rw [hcons]; exact List.mem_append_left _ hid)) hnd hinv
    have hnew' : ∀ id ∈ startedIds evs, id ∉ started ++ startedIds [ev] := by
      intro id hid
      rw [List.mem_append]
      push_neg
      refine ⟨hnew id (by rw [hcons]; exact List.mem_append_right _ hid), ?_⟩
      intro hmem
      have := hcons ▸ hdup
      rw [List.nodup_append] at this
      exact this.2.2 hmem hid
    have hdup' : (startedIds evs).Nodup := by
      have := hcons ▸ hdup
      rw [List.nodup_append] at this
      exact this.2.1
    have hrec := ih (started ++ startedIds [ev]) (handleEvent d ev).1
      (fun l => g l + queueLength (handleEvent d ev).2 l)
      (fun e he => hso e (List.mem_cons_of_mem _ he)) hnew' hdup' hstep.1 hstep.2
    intro l
    have h := hrec l
    dsimp only at h
    rw [hcons]
    simp only [runEvents]
    rw [queueLength_append, ← List.append_assoc]
    omega

/-- Claim C4 as amended: for every interleaving of Enqueued and Started events
in which no two Started events share a task id, the `queue_length` gauge at
every `(queue, task_name)` label pair is non-negative after every prefix of
the interleaving.  (As stated — allowing duplicate Started events for one task
id — the claim is false; see the counterexample.) -/
theorem queue_length_nonneg (cap : Nat) (evs : List CeleryEvent)
    (hso : ∀ ev ∈ evs, sentOrStarted ev = true)
    (hdup : (startedIds evs).Nodup) :
    ∀ (l : String × String) (i : Nat),
      0 ≤ queueLength (runEvents (LimitedSizeDict.empty cap) (evs.take i)).2 l := by
  intro l i
  have hso' : ∀ ev ∈ evs.take i, sentOrStarted ev = true :=
    fun ev hev => hso ev (List.take_subset i evs hev)
  have hdup' : (startedIds (evs.take i)).Nodup :=
    hdup.sublist (List.Sublist.filterMap _ (List.take_sublist i evs))
  have hmain := runEvents_ql_inv (evs.take i) [] (LimitedSizeDict.empty cap)
    (fun _ => 0) hso' (by simp) hdup'
    (by simp [LimitedSizeDict.empty, entryKeys])
    (by intro l'; simp [LimitedSizeDict.empty, pendingCount]) l
  have hpos : (0 : Int) ≤
      (pendingCount ([] ++ startedIds (evs.take i))
        (runEvents (LimitedSizeDict.empty cap) (evs.take i)).1.entries l : Int) :=
    Int.natCast_nonneg _
  omega

theorem queue_length_nonneg_witness :
    0 ≤ queueLength
      (runEvents (LimitedSizeDict.empty 1)
        (([CeleryEvent.sent ⟨"A", 0, "q", "t"⟩,
           CeleryEvent.started ⟨"A", 1, "w"⟩]).take 2)).2 ("q", "t") :=
  queue_length_nonneg 1
    [CeleryEvent.sent ⟨"A", 0, "q", "t"⟩, CeleryEvent.started ⟨"A", 1, "w"⟩]
    (by decide) (by decide) ("q", "t") 2

/-- Claim C4, counterexample to the claim as stated: the interleaving
Enqueued(A), Started(A), Started(A) — duplicate Started events for the same
task id — drives `queue_length{q, t}` to −1, because a Started event does not
remove the record and so decrements the gauge once per delivery. -/
theorem queue_length_negative_cex :
    queueLength
      (runEvents (LimitedSizeDict.empty 100000)
        [CeleryEvent.sent ⟨"A", 0, "q", "t"⟩,
         CeleryEvent.started ⟨"A", 1, "w"⟩,
         CeleryEvent.started ⟨"A", 2, "w"⟩]).2 ("q", "t") < 0 := by
  norm_num [runEvents, handleEvent, get_sent_time, get_started_time, setItem, containsKey,
    getEntry, replaceEntry, trimOldest, LimitedSizeDict.empty, queueLength, queueLengthDelta]
